import Mathlib

/-!
Verification of the hybrid retrieval and ranking engine of the ChatBot
repository (src/app/retrieval.py, with src/app/embedding.py and
src/app/config.py), shallowly embedded in Lean 4.

Modelling conventions:
* Python floats are modelled as rationals; all score arithmetic in the
  retrieval core is addition, subtraction, division and comparison on
  small literals, which the rational model reproduces faithfully.
* Python dictionaries are modelled as association lists in insertion
  order with unique keys; assignment to an existing key updates the entry
  in place (keeping its position), assignment to a fresh key appends.
* Python strings are modelled as Lean String values; the operations the
  code performs (lower-casing, substring containment, splitting,
  stripping) are implemented over the underlying character lists.
* Exceptions are modelled with Except: a raising call returns .error and
  code without a handler propagates the error.
* External collaborators (the rank_bm25 scoring call, the chroma vector
  query, the OpenAI embedding and completion network calls) enter the
  model as explicit inputs holding the values they would return.
-/

/-- Word character in the sense of the regular-expression class used by
retrieval.py (letters, digits, underscore; the queries handled are ASCII). -/
def isWordChar (c : Char) : Bool :=
  c.isAlphanum || c = '_'

/-- Python str.lower on the character list of a string (ASCII case folding,
which is all the retrieval code relies on). -/
def pyLower (s : String) : String :=
  String.mk (s.data.map Char.toLower)

/-- Does the character list start with the given pattern. -/
def listStarts : List Char → List Char → Bool
  | [], _ => true
  | _ :: _, [] => false
  | a :: as, b :: bs => a = b && listStarts as bs

/-- Python substring containment (the `in` operator on str): the first list
occurs contiguously inside the second. -/
def strIncl (needle : List Char) : List Char → Bool
  | [] => needle.isEmpty
  | c :: t => listStarts needle (c :: t) || strIncl needle t

/-- Python str.strip (whitespace from both ends) on a character list. -/
def trimChars (l : List Char) : List Char :=
  ((l.dropWhile Char.isWhitespace).reverse.dropWhile Char.isWhitespace).reverse

/-- Python str.split on a single comma, keeping empty pieces, as used by
Retriever._expand_query (retrieval.py line 130). -/
def splitCommaGo (cur : List Char) : List Char → List (List Char)
  | [] => [cur.reverse]
  | c :: t => if c = ',' then cur.reverse :: splitCommaGo [] t else splitCommaGo (c :: cur) t

/-- Python dict lookup with default. -/
def dGet {β : Type} (d : List (String × β)) (k : String) (v0 : β) : β :=
  match d.find? (fun p => p.1 == k) with
  | some p => p.2
  | none => v0

/-- Python dict assignment d[k] = v: an existing key keeps its position and
gets the new value, a fresh key is appended. -/
def dictSet {β : Type} (d : List (String × β)) (k : String) (v : β) : List (String × β) :=
  if d.any (fun p => p.1 == k) then d.map (fun p => if p.1 == k then (k, v) else p)
  else d ++ [(k, v)]

/-- Retrieval settings, the fields of config.Settings that the retrieval
core reads (config.py lines 25-50); path, model and ingestion fields are
not consumed by Retriever.search and are elided. -/
structure Settings where
  top_k : Nat
  top_k_final : Nat
  spam_penalty : ℚ
  spam_subject_patterns : List String
  spam_sender_patterns : List String
deriving DecidableEq

/-- Default settings values of config.Settings (config.py lines 25-50). -/
def defaultSettings : Settings :=
  ⟨100, 10, 3/10,
   ["order confirmed", "order #", "automatic reply:", "out of office", "nightly wrap",
    "your event lineup", "top suggestions", "recommendations for you", "alert:", "newsletter"],
   ["no-reply", "noreply", "donotreply", "notifications@", "alerts@"]⟩

/-- index.IndexedChunk (index.py lines 12-24): one retrievable passage with
its metadata; distance is the vector-index cosine distance. -/
structure IndexedChunk where
  chunk_id : String
  message_id : String
  thread_id : String
  subject : String
  from_address : String
  «to» : List String
  date : String
  chunk_index : Nat
  snippet : String
  raw_path : String
  distance : ℚ
deriving DecidableEq

/-- retrieval.RetrievedChunk (retrieval.py lines 18-21): a passage with its
final score. -/
structure RetrievedChunk where
  chunk : IndexedChunk
  score : ℚ
deriving DecidableEq

/-- Insert one element into a list already sorted by descending key, in
front of the first element whose key is not larger; together with
sortDescBy this reproduces the unique stable descending order that the
Python sorted(..., reverse=True) calls in retrieval.py produce. -/
def insertDescBy {α : Type} (key : α → ℚ) (x : α) : List α → List α
  | [] => [x]
  | y :: ys => if key y ≤ key x then x :: y :: ys else y :: insertDescBy key x ys

/-- Stable sort by descending key, modelling Python sorted with reverse=True
(retrieval.py lines 155, 214 and 278). -/
def sortDescBy {α : Type} (key : α → ℚ) : List α → List α
  | [] => []
  | y :: ys => insertDescBy key y (sortDescBy key ys)

/-- Retriever._deduplicate_by_thread, the walk over the sorted candidates
(retrieval.py lines 316-328): seen holds the running per-thread counts and
admitted the number of passages already emitted; a passage is admitted only
while its thread count is below maxPer, and the walk stops as soon as
budget passages have been admitted. -/
def dedupGo (maxPer budget : Nat) : List RetrievedChunk → List (String × Nat) → Nat → List RetrievedChunk
  | [], _, _ => []
  | c :: rest, seen, admitted =>
    let tc := dGet seen c.chunk.thread_id 0
    if tc < maxPer then
      if budget ≤ admitted + 1 then [c]
      else c :: dedupGo maxPer budget rest (dictSet seen c.chunk.thread_id (tc + 1)) (admitted + 1)
    else dedupGo maxPer budget rest seen admitted

/-- Retriever._deduplicate_by_thread (retrieval.py lines 303-330). -/
def dedupByThread (chunks : List RetrievedChunk) (maxPer budget : Nat) : List RetrievedChunk :=
  dedupGo maxPer budget chunks [] 0

/-- Retriever._expand_query (retrieval.py lines 120-140): reply is the text
of the completion response, none when the external call raised. The reply
is stripped, split on commas, each piece stripped and empty pieces dropped;
the original query is inserted first when it is not already present, and
the list is capped at five entries. On any error the original query alone
is returned. -/
def expandQuery (query : String) (reply : Option String) : List String :=
  match reply with
  | none => [query]
  | some text =>
    let expansions := ((splitCommaGo [] (trimChars text.data)).map
      (fun piece => String.mk (trimChars piece))).filter (fun term => term ≠ "")
    let expansions := if query ∈ expansions then expansions else query :: expansions
    expansions.take 5


/-- Maximal runs of word characters in a character list, accumulated left to
right; this is what re.findall of a word-plus pattern between word
boundaries returns (retrieval.py line 71). -/
def wordRunsGo (cur : List Char) : List Char → List (List Char)
  | [] => if cur.isEmpty then [] else [cur.reverse]
  | c :: t =>
    if isWordChar c then wordRunsGo (c :: cur) t
    else if cur.isEmpty then wordRunsGo [] t
    else cur.reverse :: wordRunsGo [] t

/-- Maximal word-character runs of a character list. -/
def wordRuns (l : List Char) : List (List Char) :=
  wordRunsGo [] l

/-- The stop-word set of Retriever._extract_keywords (retrieval.py lines
63-68). -/
def stopWords : List String :=
  ["the", "a", "an", "and", "or", "but", "in", "on", "at", "to", "for",
   "of", "with", "by", "from", "about", "as", "is", "was", "are", "were",
   "what", "when", "where", "who", "how", "did", "do", "does", "tell", "me",
   "my", "your", "our", "their", "have", "has", "had", "be", "been"]

/-- The month prefixes of the date patterns in retrieval.py lines 77 and
195. -/
def monthNames : List (List Char) :=
  [['j','a','n'], ['f','e','b'], ['m','a','r'], ['a','p','r'], ['m','a','y'], ['j','u','n'],
   ['j','u','l'], ['a','u','g'], ['s','e','p'], ['o','c','t'], ['n','o','v'], ['d','e','c']]

/-- Word boundary on the right of a match: the rest of the input starts with
a non-word character or is empty. -/
def bndAfter : List Char → Bool
  | [] => true
  | c :: _ => !isWordChar c

/-- First date alternative of the findall pattern at retrieval.py line 77:
exactly four digits between word boundaries (the left boundary is checked
by the caller). Returns the matched characters and the rest. -/
def dateAltYear : List Char → Option (List Char × List Char)
  | a :: b :: c :: d :: t =>
    if a.isDigit && b.isDigit && c.isDigit && d.isDigit && bndAfter t then
      some ([a, b, c, d], t)
    else none
  | _ => none

/-- One or two digits followed by a literal slash, with the greedy two-digit
attempt first, as in the slash-date alternative of retrieval.py line 77. -/
def digitsSlash : List Char → Option (List Char × List Char)
  | a :: '/' :: t => if a.isDigit then some ([a, '/'], t) else none
  | a :: b :: '/' :: t => if a.isDigit && b.isDigit then some ([a, b, '/'], t) else none
  | _ => none

/-- Two to four digits followed by a word boundary, preferring the longest,
the trailing component of the slash-date alternative of retrieval.py line
77. -/
def digitsTailBnd (s : List Char) : Option (List Char × List Char) :=
  match s with
  | a :: b :: c :: d :: t =>
    if a.isDigit && b.isDigit && c.isDigit && d.isDigit && bndAfter t then some ([a, b, c, d], t)
    else if a.isDigit && b.isDigit && c.isDigit && bndAfter (d :: t) then some ([a, b, c], d :: t)
    else if a.isDigit && b.isDigit && bndAfter (c :: d :: t) then some ([a, b], c :: d :: t)
    else none
  | a :: b :: c :: t =>
    if a.isDigit && b.isDigit && c.isDigit && bndAfter t then some ([a, b, c], t)
    else if a.isDigit && b.isDigit && bndAfter (c :: t) then some ([a, b], c :: t)
    else none
  | a :: b :: t => if a.isDigit && b.isDigit && bndAfter t then some ([a, b], t) else none
  | _ => none

/-- Second date alternative of retrieval.py line 77: one or two digits,
slash, one or two digits, slash, two to four digits, closed by a word
boundary. -/
def dateAltSlash (s : List Char) : Option (List Char × List Char) :=
  match digitsSlash s with
  | none => none
  | some (m1, r1) =>
    match digitsSlash r1 with
    | none => none
    | some (m2, r2) =>
      match digitsTailBnd r2 with
      | none => none
      | some (m3, r3) => some (m1 ++ m2 ++ m3, r3)

/-- One or two digits, greedy, with no trailing boundary requirement (the
day component of the month alternative of retrieval.py line 77). -/
def digits12 : List Char → Option (List Char × List Char)
  | a :: b :: t =>
    if a.isDigit && b.isDigit then some ([a, b], t)
    else if a.isDigit then some ([a], b :: t)
    else none
  | a :: t => if a.isDigit then some ([a], t) else none
  | _ => none

/-- Third date alternative of retrieval.py line 77: a month prefix, any
lower-case letters, whitespace, then one or two digits. The input is
already lower-cased by the caller. -/
def dateAltMonth (s : List Char) : Option (List Char × List Char) :=
  match s with
  | m1 :: m2 :: m3 :: rest =>
    if monthNames.contains [m1, m2, m3] then
      let letters := rest.takeWhile (fun c => c.isLower)
      let afterLetters := rest.drop letters.length
      let ws := afterLetters.takeWhile Char.isWhitespace
      if ws.isEmpty then none
      else
        match digits12 (afterLetters.drop ws.length) with
        | none => none
        | some (ds, r) => some (([m1, m2, m3] ++ letters ++ ws ++ ds), r)
    else none
  | _ => none

/-- The alternation of the three date alternatives, tried in pattern order
at one position; prevWord says whether the previous character is a word
character (for the leading word boundary each alternative requires). -/
def dateAlt (prevWord : Bool) (s : List Char) : Option (List Char × List Char) :=
  if prevWord then none
  else
    match dateAltYear s with
    | some r => some r
    | none =>
      match dateAltSlash s with
      | some r => some r
      | none => dateAltMonth s

/-- re.findall of the date pattern of retrieval.py line 77: scan left to
right, at each position try the alternatives in order, emit a match and
continue after it (matches never overlap), otherwise advance one character.
The fuel argument starts at the input length; every step consumes at least
one character. -/
def dateFindGo : Nat → Bool → List Char → List String
  | 0, _, _ => []
  | _ + 1, _, [] => []
  | fuel + 1, prevWord, c :: t =>
    match dateAlt prevWord (c :: t) with
    | some (m, rest) => String.mk m :: dateFindGo fuel (isWordChar (m.getLastD c)) rest
    | none => dateFindGo fuel (isWordChar c) t

/-- All date-like substrings of a character list (retrieval.py line 77). -/
def dateFinds (l : List Char) : List String :=
  dateFindGo l.length false l

/-- A maximal word run matching the year pattern of retrieval.py line 81:
exactly the digit 2, the digit 0 and two more digits. -/
def isYearRun : List Char → Bool
  | ['2', '0', c, d] => c.isDigit && d.isDigit
  | _ => false

/-- Retriever._extract_keywords (retrieval.py lines 57-84): word tokens of
length at least three outside the stop-word set, date-like substrings and
four-digit years, gathered as a set (modelled as a deduplicated list; every
later use is order-insensitive). -/
def extractKeywords (query : String) : List String :=
  let lowered := (pyLower query).data
  let words := (wordRuns lowered).map String.mk
  let keywords := (words.filter (fun w => 3 ≤ w.length && !stopWords.contains w)).dedup
  let dates := dateFinds lowered
  let years := ((wordRuns query.data).filter isYearRun).map String.mk
  (keywords ++ dates ++ years).dedup


/-- Existence of a match of the date pattern of retrieval.py line 195 at the
head of the input: four digits between boundaries, or one-or-two digits,
slash, digit (via the backtracking of the two quantifiers), or a month
prefix; the left boundary is checked by the caller. -/
def hasDateAt : List Char → Bool
  | a :: b :: c :: d :: t =>
    (a.isDigit && b.isDigit && c.isDigit && d.isDigit && bndAfter t) ||
    (a.isDigit && b = '/' && c.isDigit) ||
    (a.isDigit && b.isDigit && c = '/' && d.isDigit) ||
    monthNames.contains [a, b, c]
  | [a, b, c] =>
    (a.isDigit && b = '/' && c.isDigit) || monthNames.contains [a, b, c]
  | _ => false

/-- re.search of the date pattern of retrieval.py line 195 over a lower-cased
query: scan every position carrying whether the previous character is a word
character. -/
def hasDateGo : Bool → List Char → Bool
  | _, [] => false
  | prevWord, c :: t => (!prevWord && hasDateAt (c :: t)) || hasDateGo (isWordChar c) t

/-- Existence of a match of the capitalized-word pattern of retrieval.py
line 196 at the head of the input: an upper-case letter, one or more
lower-case letters, closed by a word boundary (only the maximal lower-case
run can satisfy the closing boundary); the left boundary is checked by the
caller. -/
def hasProperAt : List Char → Bool
  | a :: b :: t =>
    a.isUpper && b.isLower && bndAfter (t.drop (t.takeWhile Char.isLower).length)
  | _ => false

/-- re.search of the capitalized-word pattern of retrieval.py line 196. -/
def hasProperGo : Bool → List Char → Bool
  | _, [] => false
  | prevWord, c :: t => (!prevWord && hasProperAt (c :: t)) || hasProperGo (isWordChar c) t

/-- The specific-versus-conceptual classification computed by
Retriever.search (retrieval.py lines 194-197): the query contains a date
pattern in its lower-cased form or a capitalized word. -/
def isSpecificQuery (query : String) : Bool :=
  hasDateGo false (pyLower query).data || hasProperGo false query.data

/-- Python str.split with no separator, as used for potential names in
Retriever.search (retrieval.py line 253): whitespace-separated runs, empty
pieces never produced. -/
def splitWsGo (cur : List Char) : List Char → List String
  | [] => if cur.isEmpty then [] else [String.mk cur.reverse]
  | c :: t =>
    if c.isWhitespace then
      if cur.isEmpty then splitWsGo [] t else String.mk cur.reverse :: splitWsGo [] t
    else splitWsGo (c :: cur) t

/-- The potential person names of Retriever.search (retrieval.py line 253):
whitespace-separated words of the raw query whose first character is upper
case and whose length exceeds two. -/
def potentialNames (query : String) : List String :=
  (splitWsGo [] query.data).filter (fun w =>
    (match w.data with
     | c :: _ => c.isUpper
     | [] => false) && 2 < w.length)

/-- Retriever._is_spammy_email, one pattern loop (retrieval.py lines 292-299):
true as soon as one pattern is contained in the haystack. -/
def matchAny (hay : List Char) : List String → Bool
  | [] => false
  | p :: ps => strIncl p.data hay || matchAny hay ps

/-- Retriever._is_spammy_email (retrieval.py lines 283-301): the lower-cased
subject contains a configured spam-subject pattern, or the lower-cased
sender address contains a configured spam-sender pattern. -/
def isSpammy (st : Settings) (chunk : IndexedChunk) : Bool :=
  matchAny (pyLower chunk.subject).data st.spam_subject_patterns ||
  matchAny (pyLower chunk.from_address).data st.spam_sender_patterns

/-- Subject-overlap boost of Retriever.search (retrieval.py lines 246-250):
0.1 times the fraction of query keywords contained in the lower-cased
subject, added only when at least one keyword matches. -/
def subjectBoost (kws : List String) (subjectLower : List Char) : ℚ :=
  let m := (kws.filter (fun kw => strIncl kw.data subjectLower)).length
  if 0 < m then (1/10) * (m : ℚ) / (max kws.length 1 : ℚ) else 0

/-- Sender-name boost of Retriever.search (retrieval.py lines 252-258): 0.15
for the first potential name whose lower-cased form is contained in the
lower-cased sender address, then the loop breaks. -/
def senderBoost (fromLower : List Char) : List String → ℚ
  | [] => 0
  | n :: ns => if strIncl (pyLower n).data fromLower then 3/20 else senderBoost fromLower ns

/-- The year-keyword test of Retriever.search line 262: Python
str.isdigit (non-empty and all digits), length exactly four, and
containment in the passage date string. -/
def isYearKeyword (date : List Char) (kw : String) : Bool :=
  kw.data.all Char.isDigit && kw.data.length != 0 && decide (kw.length = 4) &&
    strIncl kw.data date

/-- Year boost of Retriever.search (retrieval.py lines 260-265): 0.15 for
the first four-character all-digit keyword contained in the passage date,
then the loop breaks. -/
def yearBoost (date : List Char) : List String → ℚ
  | [] => 0
  | kw :: ks => if isYearKeyword date kw then 3/20 else yearBoost date ks

/-- The scoring of one candidate in Retriever.search (retrieval.py lines
236-275): the fused score plus the metadata boost, minus the spam penalty
when the passage is spammy. -/
def scoreChunk (st : Settings) (kws names : List String) (chunk : IndexedChunk) (rrf : ℚ) : ℚ :=
  let metadataBoost :=
    subjectBoost kws (pyLower chunk.subject).data
    + senderBoost (pyLower chunk.from_address).data names
    + yearBoost chunk.date.data kws
    - (if isSpammy st chunk then st.spam_penalty else 0)
  rrf + metadataBoost


/-- Reciprocal-rank-fusion contributions for one ranked list of passage
identifiers: the passage at rank r (ranks starting at 1) gets 1 / (r + 60),
as assigned at retrieval.py lines 156-159 and 171-174. -/
def rrfContributions (ids : List String) : List (String × ℚ) :=
  ids.enum.map (fun p => (p.2, 1 / ((p.1 : ℚ) + 1 + 60)))

/-- Build a Python dict from a list of key-value assignments executed in
order. -/
def dictOf (l : List (String × ℚ)) : List (String × ℚ) :=
  l.foldl (fun d kv => dictSet d kv.1 kv.2) []

/-- Decidable equality for Except values, used to evaluate the concrete
pipeline runs below. -/
instance {ε α : Type} [DecidableEq ε] [DecidableEq α] : DecidableEq (Except ε α) := fun x y =>
  match x, y with
  | .error a, .error b =>
    if h : a = b then .isTrue (congrArg Except.error h)
    else .isFalse (fun hc => h (by injection hc))
  | .ok a, .ok b =>
    if h : a = b then .isTrue (congrArg Except.ok h)
    else .isFalse (fun hc => h (by injection hc))
  | .error _, .ok _ => .isFalse (fun hc => Except.noConfusion hc)
  | .ok _, .error _ => .isFalse (fun hc => Except.noConfusion hc)

/-- The inputs one call of Retriever._hybrid_search receives from its
external collaborators for one expansion: the raw BM25 scores over the
corpus (none when the BM25 index was absent or failed to load, so that
self._bm25_index is None), the result of the embedding call (error when it
raised), and the chunks the vector index returns for the query embedding. -/
structure ExpansionData where
  bm25Raw : Option (List ℚ)
  embedRes : Except String (List (List ℚ))
  vectorHits : List IndexedChunk
deriving DecidableEq

/-- Retriever._hybrid_search (retrieval.py lines 142-188). The BM25 branch
sorts the corpus indices by raw score descending, keeps the top top_k,
assigns reciprocal-rank contributions and maps indices to chunk ids; the
semantic branch embeds the query (an error here propagates, as the code has
no handler) and assigns reciprocal-rank contributions to the vector hits;
both signals are then summed per chunk id over the union of their key sets
(the iteration order of the Python set union is unspecified; the model uses
BM25 keys first, then new semantic keys, which no later step depends on). -/
def hybridSearch (bm25ChunkIds : List String) (data : ExpansionData) (topK : Nat) :
    Except String (List (String × ℚ)) :=
  let bm25Scores :=
    match data.bm25Raw with
    | none => ([] : List (String × ℚ))
    | some raw =>
      let topIdx := (sortDescBy (fun i => raw.getD i 0) (List.range raw.length)).take topK
      dictOf (rrfContributions (topIdx.map (fun i => bm25ChunkIds.getD i "")))
  match data.embedRes with
  | .error e => .error e
  | .ok embs =>
    let semScores :=
      if embs.isEmpty then ([] : List (String × ℚ))
      else dictOf (rrfContributions (data.vectorHits.map (fun c => c.chunk_id)))
    let allIds := bm25Scores.map (fun p => p.1) ++
      (semScores.map (fun p => p.1)).filter (fun cid => !bm25Scores.any (fun p => p.1 == cid))
    .ok (allIds.foldl (fun d cid => dictSet d cid (dGet bm25Scores cid 0 + dGet semScores cid 0)) [])

/-- The cross-expansion merge step of Retriever.search (retrieval.py lines
223-232): a fresh chunk id is inserted with its chunk and fused score; a
chunk id already present is replaced only when the new fused score is
strictly larger, so the kept score is the maximum seen. -/
def mergeChunk (acc : List (String × IndexedChunk × ℚ)) (entry : String × IndexedChunk × ℚ) :
    List (String × IndexedChunk × ℚ) :=
  match acc.find? (fun p => p.1 == entry.1) with
  | some p => if p.2.2 < entry.2.2 then dictSet acc entry.1 (entry.2.1, entry.2.2) else acc
  | none => dictSet acc entry.1 (entry.2.1, entry.2.2)

/-- The per-expansion body of the loop in Retriever.search (retrieval.py
lines 209-232): sort the fused scores descending, keep the top 200 chunk
ids, fetch their chunk data through the passage lookup and merge each
fetched chunk into the accumulated candidates. -/
def processExpansion (lookup : String → Option IndexedChunk)
    (acc : List (String × IndexedChunk × ℚ)) (hs : List (String × ℚ)) :
    List (String × IndexedChunk × ℚ) :=
  let sortedIds := sortDescBy (fun cid => dGet hs cid 0) (hs.map (fun p => p.1))
  let topIds := sortedIds.take 200
  let entries := topIds.filterMap (fun cid => (lookup cid).map (fun ch => (cid, ch, dGet hs cid 0)))
  entries.foldl mergeChunk acc

/-- The expansion loop of Retriever.search (retrieval.py lines 209-232),
with exception propagation from the embedding call inside
Retriever._hybrid_search. -/
def searchLoop (st : Settings) (bm25ChunkIds : List String)
    (perExp : String → ExpansionData) (lookup : String → Option IndexedChunk) :
    List String → List (String × IndexedChunk × ℚ) →
    Except String (List (String × IndexedChunk × ℚ))
  | [], acc => .ok acc
  | e :: rest, acc =>
    match hybridSearch bm25ChunkIds (perExp e) st.top_k with
    | .error err => .error err
    | .ok hs => searchLoop st bm25ChunkIds perExp lookup rest (processExpansion lookup acc hs)

/-- Retriever.search after query analysis (retrieval.py lines 205-281),
taking the extracted keywords, the potential names, the computed
specific-versus-conceptual classification and the expansion list as
arguments. The classification is bound by the code at lines 194-197 and
used only in a log line at line 203, which is why the parameter is unused
here. The passage lookup stands for EmailIndex.get_chunks_by_ids, which
retrieval.py line 220 calls; that method is not present in
src/app/index.py, so it is modelled from the spec as the "passage lookup"
mapping passage identifiers to passages (spec section 4.5). After the loop,
every candidate is scored, the candidates are sorted by score descending
(Python sorted is stable, so equal scores keep accumulation order), and the
thread diversifier runs with max_per_thread fixed to 1 and the configured
final budget. -/
def searchFrom (st : Settings) (_isSpecific : Bool) (kws names : List String)
    (expansions : List String) (bm25ChunkIds : List String)
    (perExp : String → ExpansionData) (lookup : String → Option IndexedChunk) :
    Except String (List RetrievedChunk) :=
  match searchLoop st bm25ChunkIds perExp lookup expansions [] with
  | .error e => .error e
  | .ok allChunks =>
    let scored := allChunks.map (fun p => RetrievedChunk.mk p.2.1 (scoreChunk st kws names p.2.1 p.2.2))
    let reranked := sortDescBy (fun rc => rc.score) scored
    .ok (dedupByThread reranked 1 st.top_k_final)

/-- Retriever.search (retrieval.py lines 190-281): extract keywords and
potential names, compute the specific-versus-conceptual classification,
expand the query (reply is the completion text, none when the call raised)
and run the candidate pipeline. -/
def search (st : Settings) (query : String) (reply : Option String)
    (bm25ChunkIds : List String) (perExp : String → ExpansionData)
    (lookup : String → Option IndexedChunk) : Except String (List RetrievedChunk) :=
  searchFrom st (isSpecificQuery query) (extractKeywords query) (potentialNames query)
    (expandQuery query reply) bm25ChunkIds perExp lookup

/-- One attempt outcome of the OpenAI embeddings call inside
Embedder._embed_with_retry (embedding.py lines 44-69). -/
inductive EmbedOutcome
  | ok (v : List (List ℚ))
  | rateLimit
  | timeout
  | other (e : String)
deriving DecidableEq

/-- Embedder._embed_with_retry (embedding.py lines 37-72): up to five
attempts; a successful attempt returns its embeddings; a rate-limit or
timeout outcome retries while attempts remain and re-raises on the last
attempt; any other exception re-raises at once. The input list holds the
outcome each attempt would see, one per remaining attempt. -/
def embedWithRetry : List EmbedOutcome → Except String (List (List ℚ))
  | [] => .error "Failed to embed after max retries"
  | o :: rest =>
    match o with
    | .ok v => .ok v
    | .rateLimit => if rest.isEmpty then .error "RateLimitError" else embedWithRetry rest
    | .timeout => if rest.isEmpty then .error "APITimeoutError" else embedWithRetry rest
    | .other e => .error e


theorem dictSet_ne_nil {β : Type} (d : List (String × β)) (k : String) (v : β) :
    dictSet d k v ≠ [] := by
  unfold dictSet
  split
  · rcases d with _ | ⟨p, t⟩
    · simp_all
    · simp
  · simp

theorem find?_map_update {β : Type} (k : String) (v : β) :
    ∀ t : List (String × β), t.any (fun p => p.1 == k) = true →
      (t.map (fun p => if p.1 == k then (k, v) else p)).find? (fun p => p.1 == k) = some (k, v) := by
  intro t
  induction t with
  | nil => simp
  | cons p t ih =>
    intro h
    by_cases hp : p.1 = k
    · simp [List.find?, hp]
    · have hp' : (p.1 == k) = false := by simp [hp]
      simp only [List.any_cons, hp', Bool.false_or] at h
      simp only [List.map_cons, hp', if_neg, Bool.false_eq_true, not_false_iff]
      rw [List.find?_cons_of_neg _ (by simp [hp]), ih h]

theorem find?_map_keep {β : Type} (k k' : String) (v : β) (hk : k' ≠ k) :
    ∀ t : List (String × β),
      (t.map (fun p => if p.1 == k then (k, v) else p)).find? (fun p => p.1 == k') =
        t.find? (fun p => p.1 == k') := by
  intro t
  induction t with
  | nil => simp
  | cons p t ih =>
    by_cases hp : p.1 = k
    · have h1 : ((k : String) == k') = false := by simp [Ne.symm hk]
      have h2 : (p.1 == k') = false := by simp [hp, Ne.symm hk]
      simp only [List.map_cons, hp, beq_self_eq_true, if_pos]
      rw [List.find?_cons_of_neg _ (by simp [Ne.symm hk]),
        List.find?_cons_of_neg _ (by simp [hp, Ne.symm hk]), ih]
    · simp only [List.map_cons, if_neg (by simp [hp] : ¬((p.1 == k) = true))]
      by_cases hq : p.1 = k'
      · rw [List.find?_cons_of_pos _ (by simp [hq]), List.find?_cons_of_pos _ (by simp [hq])]
      · rw [List.find?_cons_of_neg _ (by simp [hq]), List.find?_cons_of_neg _ (by simp [hq]), ih]

theorem find?_dictSet_self {β : Type} (d : List (String × β)) (k : String) (v : β) :
    (dictSet d k v).find? (fun p => p.1 == k) = some (k, v) := by
  unfold dictSet
  split
  · exact find?_map_update k v d (by assumption)
  · have hnone : d.find? (fun p => p.1 == k) = none := by
      rw [List.find?_eq_none]
      intro x hx hpx
      rename_i hany
      exact hany (List.any_eq_true.mpr ⟨x, hx, hpx⟩)
    rw [List.find?_append, hnone]
    simp

theorem find?_dictSet_ne {β : Type} (d : List (String × β)) (k k' : String) (v : β)
    (hk : k' ≠ k) :
    (dictSet d k v).find? (fun p => p.1 == k') = d.find? (fun p => p.1 == k') := by
  unfold dictSet
  split
  · exact find?_map_keep k k' v hk d
  · rw [List.find?_append]
    have hkk : (k == k') = false := beq_eq_false_iff_ne.mpr (Ne.symm hk)
    have : ([(k, v)] : List (String × β)).find? (fun p => p.1 == k') = none := by
      simp [List.find?, hkk]
    rw [this]
    simp

theorem dGet_dictSet {β : Type} (d : List (String × β)) (k k' : String) (v v0 : β) :
    dGet (dictSet d k v) k' v0 = if k' = k then v else dGet d k' v0 := by
  by_cases h : k' = k
  · subst h
    simp [dGet, find?_dictSet_self]
  · simp [dGet, find?_dictSet_ne d k k' v h, h]

theorem mem_map_fst_dictSet {β : Type} (d : List (String × β)) (k : String) (v : β)
    (x : String) (hx : x ∈ (dictSet d k v).map Prod.fst) :
    x ∈ d.map Prod.fst ∨ x = k := by
  unfold dictSet at hx
  split at hx
  · rw [List.map_map] at hx
    rcases List.mem_map.mp hx with ⟨p, hp, hpe⟩
    by_cases hk : p.1 = k
    · right
      simpa [Function.comp, hk] using hpe.symm
    · left
      rw [List.mem_map]
      exact ⟨p, hp, by simpa [Function.comp, hk] using hpe⟩
  · rw [List.map_append] at hx
    rcases List.mem_append.mp hx with h | h
    · exact Or.inl h
    · right
      simpa using h

theorem foldl_ne_nil {γ δ : Type} (step : List δ → γ → List δ)
    (h : ∀ d x, step d x ≠ []) :
    ∀ (l : List γ) (d : List δ), (d ≠ [] ∨ l ≠ []) → l.foldl step d ≠ [] := by
  intro l
  induction l with
  | nil =>
    intro d hd
    simpa using hd.resolve_right (by simp)
  | cons x t ih =>
    intro d _
    exact ih (step d x) (Or.inl (h d x))

theorem insertDescBy_perm {α : Type} (key : α → ℚ) (x : α) :
    ∀ s : List α, (insertDescBy key x s).Perm (x :: s) := by
  intro s
  induction s with
  | nil => simp [insertDescBy]
  | cons y ys ih =>
    unfold insertDescBy
    split
    · exact List.Perm.refl _
    · exact (ih.cons y).trans (List.Perm.swap x y ys)

theorem sortDescBy_perm {α : Type} (key : α → ℚ) :
    ∀ l : List α, (sortDescBy key l).Perm l := by
  intro l
  induction l with
  | nil => simp [sortDescBy]
  | cons y ys ih =>
    exact (insertDescBy_perm key y (sortDescBy key ys)).trans (ih.cons y)

theorem insertDescBy_pairwise {α : Type} (key : α → ℚ) (x : α) :
    ∀ s : List α, List.Pairwise (fun a b => key b ≤ key a) s →
      List.Pairwise (fun a b => key b ≤ key a) (insertDescBy key x s) := by
  intro s
  induction s with
  | nil => simp [insertDescBy]
  | cons y ys ih =>
    intro hp
    rcases List.pairwise_cons.mp hp with ⟨hy, hys⟩
    unfold insertDescBy
    split
    · rename_i hle
      refine List.pairwise_cons.mpr ⟨?_, hp⟩
      intro z hz
      rcases List.mem_cons.mp hz with rfl | hz
      · exact hle
      · exact (hy z hz).trans hle
    · rename_i hgt
      push_neg at hgt
      refine List.pairwise_cons.mpr ⟨?_, ih hys⟩
      intro z hz
      rcases List.mem_cons.mp ((insertDescBy_perm key x ys).mem_iff.mp hz) with rfl | hz
      · exact le_of_lt hgt
      · exact hy z hz

theorem sortDescBy_pairwise {α : Type} (key : α → ℚ) :
    ∀ l : List α, List.Pairwise (fun a b => key b ≤ key a) (sortDescBy key l) := by
  intro l
  induction l with
  | nil => simp [sortDescBy]
  | cons y ys ih => exact insertDescBy_pairwise key y (sortDescBy key ys) ih

theorem filter_insertDescBy {α : Type} (key : α → ℚ) (c : ℚ) (x : α) :
    ∀ s : List α, (insertDescBy key x s).filter (fun y => decide (key y = c)) =
      if key x = c then x :: s.filter (fun y => decide (key y = c))
      else s.filter (fun y => decide (key y = c)) := by
  intro s
  induction s with
  | nil => by_cases hx : key x = c <;> simp [insertDescBy, hx]
  | cons y ys ih =>
    unfold insertDescBy
    split
    · by_cases hx : key x = c <;> simp [List.filter, hx]
    · rename_i hgt
      push_neg at hgt
      by_cases hy : key y = c
      · have hx : ¬ key x = c := fun h => absurd (h.trans hy.symm) (ne_of_lt hgt)
        rw [if_neg hx, List.filter_cons_of_pos (by simp [hy]),
          List.filter_cons_of_pos (by simp [hy]), ih, if_neg hx]
      · rw [List.filter_cons_of_neg (by simp [hy]), ih,
          List.filter_cons_of_neg (by simp [hy])]

theorem sortDescBy_filter {α : Type} (key : α → ℚ) (c : ℚ) :
    ∀ l : List α, (sortDescBy key l).filter (fun y => decide (key y = c)) =
      l.filter (fun y => decide (key y = c)) := by
  intro l
  induction l with
  | nil => simp [sortDescBy]
  | cons y ys ih =>
    unfold sortDescBy
    rw [filter_insertDescBy]
    by_cases hy : key y = c
    · rw [if_pos hy, ih, List.filter_cons_of_pos (by simp [hy])]
    · rw [if_neg hy, ih, List.filter_cons_of_neg (by simp [hy])]

theorem sortDescBy_length {α : Type} (key : α → ℚ) (l : List α) :
    (sortDescBy key l).length = l.length :=
  (sortDescBy_perm key l).length_eq

theorem sortDescBy_ne_nil {α : Type} (key : α → ℚ) (l : List α) (h : l ≠ []) :
    sortDescBy key l ≠ [] := by
  intro hc
  apply h
  have := sortDescBy_length key l
  rw [hc] at this
  exact List.length_eq_zero.mp this.symm

/-- Number of passages of a given thread in a result list. -/
def threadCount (t : String) (l : List RetrievedChunk) : Nat :=
  (l.filter (fun rc => rc.chunk.thread_id == t)).length

theorem dedupGo_sublist (maxPer budget : Nat) :
    ∀ (l : List RetrievedChunk) (seen : List (String × Nat)) (n : Nat),
      (dedupGo maxPer budget l seen n).Sublist l := by
  intro l
  induction l with
  | nil =>
    intro seen n
    simp [dedupGo]
  | cons c rest ih =>
    intro seen n
    unfold dedupGo
    dsimp only
    split
    · split
      · exact (List.nil_sublist rest).cons₂ c
      · exact (ih _ _).cons₂ c
    · exact (ih seen n).cons c

theorem threadCount_cons (t : String) (c : RetrievedChunk) (l : List RetrievedChunk) :
    threadCount t (c :: l) =
      (if c.chunk.thread_id = t then 1 else 0) + threadCount t l := by
  unfold threadCount
  by_cases h : c.chunk.thread_id = t
  · rw [List.filter_cons_of_pos (by simp [h]), if_pos h]
    simp [Nat.add_comm]
  · rw [List.filter_cons_of_neg (by simp [h]), if_neg h]
    simp

theorem dedupGo_threadCount (maxPer budget : Nat) (t : String) :
    ∀ (l : List RetrievedChunk) (seen : List (String × Nat)) (n : Nat),
      threadCount t (dedupGo maxPer budget l seen n) ≤ maxPer - dGet seen t 0 := by
  intro l
  induction l with
  | nil =>
    intro seen n
    simp [dedupGo, threadCount]
  | cons c rest ih =>
    intro seen n
    unfold dedupGo
    dsimp only
    split
    · rename_i hlt
      split
      · rw [threadCount_cons t c []]
        have h0 : threadCount t ([] : List RetrievedChunk) = 0 := rfl
        by_cases h : c.chunk.thread_id = t
        · subst h
          rw [if_pos rfl, h0]
          omega
        · rw [if_neg h, h0]
          exact Nat.zero_le _
      · rw [threadCount_cons]
        have hrec := ih (dictSet seen c.chunk.thread_id (dGet seen c.chunk.thread_id 0 + 1)) (n + 1)
        by_cases h : c.chunk.thread_id = t
        · subst h
          rw [dGet_dictSet, if_pos rfl] at hrec
          rw [if_pos rfl]
          omega
        · rw [dGet_dictSet, if_neg (fun hc => h hc.symm)] at hrec
          rw [if_neg h]
          omega
    · exact ih seen n

theorem dedupByThread_threadCount (l : List RetrievedChunk) (maxPer budget : Nat) (t : String) :
    threadCount t (dedupByThread l maxPer budget) ≤ maxPer := by
  have := dedupGo_threadCount maxPer budget t l [] 0
  simpa [dedupByThread, dGet] using this

theorem dedupGo_length (maxPer budget : Nat) :
    ∀ (l : List RetrievedChunk) (seen : List (String × Nat)) (n : Nat), n < budget →
      (dedupGo maxPer budget l seen n).length ≤ budget - n := by
  intro l
  induction l with
  | nil =>
    intro seen n _
    simp [dedupGo]
  | cons c rest ih =>
    intro seen n hn
    unfold dedupGo
    dsimp only
    split
    · split
      · rename_i hstop
        simp only [List.length_cons, List.length_nil]
        omega
      · rename_i hgo
        have := ih (dictSet seen c.chunk.thread_id (dGet seen c.chunk.thread_id 0 + 1)) (n + 1)
          (by omega)
        simp only [List.length_cons]
        omega
    · exact ih seen n hn

theorem dedupByThread_length (l : List RetrievedChunk) (maxPer : Nat) :
    (dedupByThread l maxPer 10).length ≤ 10 := by
  have := dedupGo_length maxPer 10 l [] 0 (by omega)
  simpa [dedupByThread] using this

theorem dedupByThread_ne_nil (c : RetrievedChunk) (rest : List RetrievedChunk)
    (maxPer budget : Nat) (h : 0 < maxPer) :
    dedupByThread (c :: rest) maxPer budget ≠ [] := by
  unfold dedupByThread dedupGo
  dsimp only
  rw [if_pos (by simpa [dGet] using h)]
  split <;> simp

/-- The fused score the accumulated candidate dict holds for a chunk id. -/
def scoreOf (d : List (String × IndexedChunk × ℚ)) (cid : String) : Option ℚ :=
  (d.find? (fun p => p.1 == cid)).map (fun p => p.2.2)

/-- Merge one more observed score into an optional running maximum. -/
def omax (o : Option ℚ) (s : ℚ) : Option ℚ :=
  some (match o with | none => s | some v => max v s)

theorem scoreOf_mergeChunk (d : List (String × IndexedChunk × ℚ))
    (e : String × IndexedChunk × ℚ) (cid : String) :
    scoreOf (mergeChunk d e) cid =
      if cid = e.1 then omax (scoreOf d e.1) e.2.2 else scoreOf d cid := by
  cases hf : d.find? (fun p => p.1 == e.1) with
  | none =>
    have hm : mergeChunk d e = dictSet d e.1 (e.2.1, e.2.2) := by
      unfold mergeChunk
      rw [hf]
    rw [hm]
    by_cases hc : cid = e.1
    · subst hc
      rw [if_pos rfl]
      unfold scoreOf
      rw [find?_dictSet_self, hf]
      rfl
    · rw [if_neg hc]
      unfold scoreOf
      rw [find?_dictSet_ne d e.1 cid _ hc]
  | some p =>
    by_cases hlt : p.2.2 < e.2.2
    · have hm : mergeChunk d e = dictSet d e.1 (e.2.1, e.2.2) := by
        unfold mergeChunk
        rw [hf]
        exact if_pos hlt
      rw [hm]
      by_cases hc : cid = e.1
      · subst hc
        rw [if_pos rfl]
        unfold scoreOf
        rw [find?_dictSet_self, hf]
        show some e.2.2 = some (max p.2.2 e.2.2)
        exact congrArg some (max_eq_right (le_of_lt hlt)).symm
      · rw [if_neg hc]
        unfold scoreOf
        rw [find?_dictSet_ne d e.1 cid _ hc]
    · have hm : mergeChunk d e = d := by
        unfold mergeChunk
        rw [hf]
        exact if_neg hlt
      rw [hm]
      by_cases hc : cid = e.1
      · subst hc
        rw [if_pos rfl]
        unfold scoreOf
        rw [hf]
        show some p.2.2 = some (max p.2.2 e.2.2)
        exact congrArg some (max_eq_left (not_lt.mp hlt)).symm
      · rw [if_neg hc]

theorem scoreOf_foldl_mergeChunk (cid : String) :
    ∀ (entries : List (String × IndexedChunk × ℚ)) (d : List (String × IndexedChunk × ℚ)),
      scoreOf (entries.foldl mergeChunk d) cid =
        ((entries.filter (fun e => e.1 == cid)).map (fun e => e.2.2)).foldl omax (scoreOf d cid) := by
  intro entries
  induction entries with
  | nil =>
    intro d
    simp
  | cons e es ih =>
    intro d
    rw [List.foldl_cons, ih (mergeChunk d e), scoreOf_mergeChunk]
    by_cases he : e.1 = cid
    · rw [List.filter_cons_of_pos (by simp [he]), List.map_cons, List.foldl_cons,
        if_pos he.symm, he]
    · rw [List.filter_cons_of_neg (by simp [he]), if_neg (fun hc => he hc.symm)]

theorem foldl_omax_some (v : ℚ) : ∀ l : List ℚ, l.foldl omax (some v) = some (l.foldl max v) := by
  intro l
  induction l generalizing v with
  | nil => rfl
  | cons a as ih => simp [List.foldl_cons, omax, ih]

theorem foldl_omax_none (l : List ℚ) : l.foldl omax none = l.max? := by
  cases l with
  | nil => rfl
  | cons a as =>
    rw [List.foldl_cons]
    show as.foldl omax (some a) = _
    rw [foldl_omax_some]
    rfl

theorem take5_ne_nil {l : List String} (h : l ≠ []) : l.take 5 ≠ [] := by
  cases l with
  | nil => exact absurd rfl h
  | cons a t => simp [List.take]

theorem expandQuery_ne_nil (q : String) (r : Option String) : expandQuery q r ≠ [] := by
  cases r with
  | none => simp [expandQuery]
  | some text =>
    unfold expandQuery
    dsimp only
    split
    · rename_i hmem
      exact take5_ne_nil (List.ne_nil_of_mem hmem)
    · exact take5_ne_nil (List.cons_ne_nil _ _)

theorem rrfContributions_map_fst (ids : List String) :
    (rrfContributions ids).map Prod.fst = ids := by
  unfold rrfContributions
  rw [List.map_map]
  have h : (Prod.fst ∘ fun p : Nat × String => (p.2, (1 : ℚ) / ((p.1 : ℚ) + 1 + 60))) =
      Prod.snd := rfl
  rw [h, List.enum_map_snd]

theorem rrfContributions_ne_nil (ids : List String) (h : ids ≠ []) :
    rrfContributions ids ≠ [] := by
  intro hc
  apply h
  have := congrArg (List.map Prod.fst) hc
  rw [rrfContributions_map_fst] at this
  simpa using this

theorem mem_map_fst_foldl_dictSet {β γ : Type} (f : γ → String) (g : γ → β) :
    ∀ (l : List γ) (d : List (String × β)) (x : String),
      x ∈ (l.foldl (fun acc c => dictSet acc (f c) (g c)) d).map Prod.fst →
      x ∈ d.map Prod.fst ∨ x ∈ l.map f := by
  intro l
  induction l with
  | nil =>
    intro d x hx
    exact Or.inl hx
  | cons c t ih =>
    intro d x hx
    rcases ih (dictSet d (f c) (g c)) x hx with h | h
    · rcases mem_map_fst_dictSet _ _ _ _ h with h2 | h2
      · exact Or.inl h2
      · exact Or.inr (by simp [h2])
    · exact Or.inr (by simp [h])

theorem mem_map_fst_dictOf (l : List (String × ℚ)) (x : String)
    (hx : x ∈ (dictOf l).map Prod.fst) : x ∈ l.map Prod.fst := by
  have := mem_map_fst_foldl_dictSet (γ := String × ℚ) Prod.fst Prod.snd l [] x
  rcases this hx with h | h
  · simp at h
  · exact h

theorem dictOf_ne_nil (l : List (String × ℚ)) (h : l ≠ []) : dictOf l ≠ [] := by
  unfold dictOf
  exact foldl_ne_nil _ (fun d kv => dictSet_ne_nil d kv.1 kv.2) l [] (Or.inr h)

theorem mergeChunk_ne_nil (d : List (String × IndexedChunk × ℚ))
    (e : String × IndexedChunk × ℚ) : mergeChunk d e ≠ [] := by
  cases hf : d.find? (fun p => p.1 == e.1) with
  | none =>
    have hm : mergeChunk d e = dictSet d e.1 (e.2.1, e.2.2) := by
      unfold mergeChunk
      rw [hf]
    rw [hm]
    exact dictSet_ne_nil d e.1 _
  | some p =>
    by_cases hlt : p.2.2 < e.2.2
    · have hm : mergeChunk d e = dictSet d e.1 (e.2.1, e.2.2) := by
        unfold mergeChunk
        rw [hf]
        exact if_pos hlt
      rw [hm]
      exact dictSet_ne_nil d e.1 _
    · have hm : mergeChunk d e = d := by
        unfold mergeChunk
        rw [hf]
        exact if_neg hlt
      rw [hm]
      intro hd
      rw [hd] at hf
      simp at hf

theorem filterMap_ne_nil {γ δ : Type} (f : γ → Option δ) (l : List γ) (x : γ) (hx : x ∈ l)
    (hfx : (f x).isSome) : l.filterMap f ≠ [] := by
  intro h
  have hall := List.filterMap_eq_nil_iff.mp h x hx
  rw [hall] at hfx
  simp at hfx

/-- The fused-score dict Retriever._hybrid_search produces when the BM25
index is absent and the embedding call returns a non-empty embedding list:
the semantic contributions alone. -/
def semOnlyScores (hits : List IndexedChunk) : List (String × ℚ) :=
  let semScores := dictOf (rrfContributions (hits.map (fun c => c.chunk_id)))
  let allIds := ([] : List (String × ℚ)).map (fun p => p.1) ++
    (semScores.map (fun p => p.1)).filter
      (fun cid => !(([] : List (String × ℚ)).any (fun p => p.1 == cid)))
  allIds.foldl (fun d cid => dictSet d cid (dGet [] cid 0 + dGet semScores cid 0)) []

theorem hybridSearch_semOnly (bIds : List String) (e0 : List ℚ) (t0 : List (List ℚ))
    (hits : List IndexedChunk) (k : Nat) :
    hybridSearch bIds ⟨none, .ok (e0 :: t0), hits⟩ k = .ok (semOnlyScores hits) := rfl

theorem semOnlyScores_spec (hits : List IndexedChunk) :
    semOnlyScores hits =
      ((dictOf (rrfContributions (hits.map (fun c => c.chunk_id)))).map (fun p => p.1)).foldl
        (fun d cid => dictSet d cid (dGet [] cid 0 +
          dGet (dictOf (rrfContributions (hits.map (fun c => c.chunk_id)))) cid 0)) [] := by
  unfold semOnlyScores
  simp only [List.map_nil, List.nil_append, List.any_nil, Bool.not_false]
  rw [List.filter_true]

theorem semOnlyScores_ne_nil (hits : List IndexedChunk) (h : hits ≠ []) :
    semOnlyScores hits ≠ [] := by
  rw [semOnlyScores_spec]
  apply foldl_ne_nil _ (fun d cid => dictSet_ne_nil d cid _)
  refine Or.inr ?_
  intro hc
  apply dictOf_ne_nil (rrfContributions (hits.map (fun c => c.chunk_id)))
  · apply rrfContributions_ne_nil
    simpa using h
  · simpa using hc

theorem mem_semOnlyScores_keys (hits : List IndexedChunk) (cid : String)
    (hx : cid ∈ (semOnlyScores hits).map Prod.fst) :
    cid ∈ hits.map (fun c => c.chunk_id) := by
  rw [semOnlyScores_spec] at hx
  have := mem_map_fst_foldl_dictSet (β := ℚ) (γ := String) (fun c => c)
    (fun c => dGet [] c 0 + dGet (dictOf (rrfContributions (hits.map (fun c => c.chunk_id)))) c 0)
    ((dictOf (rrfContributions (hits.map (fun c => c.chunk_id)))).map (fun p => p.1)) [] cid
  rcases this hx with h | h
  · simp at h
  · rw [List.map_id'] at h
    have h2 := mem_map_fst_dictOf _ _ h
    rwa [rrfContributions_map_fst] at h2

theorem take_pos_ne_nil {γ : Type} (l : List γ) (n : Nat) (hl : l ≠ []) (hn : 0 < n) :
    l.take n ≠ [] := by
  cases l with
  | nil => exact absurd rfl hl
  | cons a t =>
    cases n with
    | zero => omega
    | succ m => simp [List.take]

theorem processExpansion_ne_nil (lookup : String → Option IndexedChunk)
    (acc : List (String × IndexedChunk × ℚ)) (hs : List (String × ℚ))
    (hhs : hs ≠ []) (hlook : ∀ cid ∈ hs.map Prod.fst, (lookup cid).isSome) :
    processExpansion lookup acc hs ≠ [] := by
  unfold processExpansion
  apply foldl_ne_nil mergeChunk mergeChunk_ne_nil
  refine Or.inr ?_
  have hkeys : (hs.map (fun p => p.1) : List String) ≠ [] := by simpa using hhs
  have hsorted : sortDescBy (fun cid => dGet hs cid 0) (hs.map (fun p => p.1)) ≠ [] :=
    sortDescBy_ne_nil _ _ hkeys
  have htop : (sortDescBy (fun cid => dGet hs cid 0) (hs.map (fun p => p.1))).take 200 ≠ [] :=
    take_pos_ne_nil _ 200 hsorted (by omega)
  rcases List.exists_mem_of_ne_nil _ htop with ⟨x, hxmem⟩
  refine filterMap_ne_nil _ _ x hxmem ?_
  have hx2 : x ∈ hs.map Prod.fst := by
    have hx1 := List.take_subset 200 _ hxmem
    exact (sortDescBy_perm (fun cid => dGet hs cid 0) (hs.map (fun p => p.1))).mem_iff.mp hx1
  have := hlook x hx2
  rcases Option.isSome_iff_exists.mp this with ⟨c, hc⟩
  simp [hc]

theorem searchLoop_semOnly (st : Settings) (bIds : List String) (e0 : List ℚ)
    (t0 : List (List ℚ)) (hits : List IndexedChunk) (lookup : String → Option IndexedChunk)
    (hhits : hits ≠ [])
    (hlook : ∀ c ∈ hits, lookup c.chunk_id = some c) :
    ∀ (exps : List String) (acc : List (String × IndexedChunk × ℚ)), ∃ dAll,
      searchLoop st bIds (fun _ => ⟨none, .ok (e0 :: t0), hits⟩) lookup exps acc = .ok dAll ∧
      ((acc ≠ [] ∨ exps ≠ []) → dAll ≠ []) := by
  intro exps
  induction exps with
  | nil =>
    intro acc
    exact ⟨acc, rfl, fun h => h.resolve_right (by simp)⟩
  | cons e rest ih =>
    intro acc
    rcases ih (processExpansion lookup acc (semOnlyScores hits)) with ⟨dAll, hd, hne⟩
    have hstep : searchLoop st bIds (fun _ => ⟨none, .ok (e0 :: t0), hits⟩) lookup (e :: rest) acc =
        searchLoop st bIds (fun _ => ⟨none, .ok (e0 :: t0), hits⟩) lookup rest
          (processExpansion lookup acc (semOnlyScores hits)) := rfl
    refine ⟨dAll, hstep.trans hd, fun _ => hne (Or.inl ?_)⟩
    apply processExpansion_ne_nil lookup acc _ (semOnlyScores_ne_nil hits hhits)
    intro cid hcid
    have hmem := mem_semOnlyScores_keys hits cid hcid
    rcases List.mem_map.mp hmem with ⟨c, hcin, hce⟩
    rw [← hce, hlook c hcin]
    rfl

/-- A chunk used in the concrete merge example of claim C1. -/
def c1chunk : IndexedChunk := ⟨"p", "m", "t", "s", "f", [], "", 0, "", "", 0⟩

/-- Claim C1: across expansions, the merged fused score Retriever.search
keeps per passage identifier (the fold of the merge step at retrieval.py
lines 223-232 over all expansion entries) is the maximum of that passage
per-expansion fused scores, not their sum; in particular scores 0.02 and
0.015 (in either order) merge to 0.02. -/
theorem c1_merge_keeps_max :
    (∀ (entries : List (String × IndexedChunk × ℚ)) (cid : String),
      scoreOf (entries.foldl mergeChunk []) cid =
        ((entries.filter (fun e => e.1 == cid)).map (fun e => e.2.2)).max?) ∧
    scoreOf ([("p", c1chunk, 1/50), ("p", c1chunk, 3/200)].foldl mergeChunk []) "p" =
      some (1/50) ∧
    scoreOf ([("p", c1chunk, 3/200), ("p", c1chunk, 1/50)].foldl mergeChunk []) "p" =
      some (1/50) := by
  refine ⟨?_, by with_unfolding_all decide, by with_unfolding_all decide⟩
  intro entries cid
  rw [scoreOf_foldl_mergeChunk]
  have h0 : scoreOf [] cid = none := rfl
  rw [h0, foldl_omax_none]

/-- A chunk of a given thread used in the concrete examples of claim C2. -/
def c2chunk (tid : String) : IndexedChunk := ⟨"c", "m", tid, "s", "f", [], "", 0, "", "", 0⟩

/-- Claim C2: the thread diversifier walks the scored sequence once in
order (its output is a sublist of its input), admits a passage only while
its thread count is below maxPerThread (at most maxPerThread passages per
thread in the output), stops once the final budget (default 10) passages
are admitted (output length at most 10, and a budget of 1 truncates), and
on thread ids T1,T1,T1,T2,T3 at descending scores 0.9..0.5 with
maxPerThread 1 returns exactly the passages scored 0.9, 0.6, 0.5. -/
theorem c2_thread_diversifier :
    (∀ (l : List RetrievedChunk) (maxPer : Nat), (dedupByThread l maxPer 10).Sublist l) ∧
    (∀ (l : List RetrievedChunk) (maxPer : Nat) (t : String),
      threadCount t (dedupByThread l maxPer 10) ≤ maxPer) ∧
    (∀ (l : List RetrievedChunk) (maxPer : Nat), (dedupByThread l maxPer 10).length ≤ 10) ∧
    dedupByThread [⟨c2chunk "T1", 9/10⟩, ⟨c2chunk "T1", 8/10⟩, ⟨c2chunk "T1", 7/10⟩,
        ⟨c2chunk "T2", 6/10⟩, ⟨c2chunk "T3", 5/10⟩] 1 10 =
      [⟨c2chunk "T1", 9/10⟩, ⟨c2chunk "T2", 6/10⟩, ⟨c2chunk "T3", 5/10⟩] ∧
    dedupByThread [⟨c2chunk "T1", 9/10⟩, ⟨c2chunk "T2", 6/10⟩] 1 1 =
      [⟨c2chunk "T1", 9/10⟩] := by
  refine ⟨?_, ?_, ?_, by with_unfolding_all decide, by with_unfolding_all decide⟩
  · intro l maxPer
    exact dedupGo_sublist maxPer 10 l [] 0
  · intro l maxPer t
    exact dedupByThread_threadCount l maxPer 10 t
  · intro l maxPer
    exact dedupByThread_length l maxPer

/-- Claim C7 (code bug): the parsed expansions are returned with the
original question inserted first only when the model reply does not already
contain it, so a reply that echoes the question in a later position leaves
the original not first, and a reply with five or more terms before the
echoed question drops the original entirely, contradicting the comment at
retrieval.py line 132 and the spec. -/
theorem c7_expansion_order_bug :
    expandQuery "password" (some "PW, password") = ["PW", "password"] ∧
    (expandQuery "password" (some "PW, password")).head? ≠ some "password" ∧
    expandQuery "q" (some "a, b, c, d, e, q") = ["a", "b", "c", "d", "e"] ∧
    "q" ∉ expandQuery "q" (some "a, b, c, d, e, q") := by
  exact ⟨by decide, by decide, by decide, by decide⟩

/-- Claim C8: when the external expansion call raises, the query expander
returns exactly the one-element list holding the original question. -/
theorem c8_expansion_error_fallback : ∀ q : String, expandQuery q none = [q] :=
  fun _ => rfl

/-- Claim C9: every reciprocal-rank-fusion contribution assigned inside
Retriever._hybrid_search is 1 / (rank + 60) with rank starting at 1, hence
lies in the half-open interval (0, 1/61]. -/
theorem c9_rrf_contribution_bounds (ids : List String) (cid : String) (c : ℚ)
    (hmem : (cid, c) ∈ rrfContributions ids) : 0 < c ∧ c ≤ 1/61 := by
  unfold rrfContributions at hmem
  rcases List.mem_map.mp hmem with ⟨p, _, hpe⟩
  have hc : c = 1 / ((p.1 : ℚ) + 1 + 60) := ((Prod.mk.injEq _ _ _ _).mp hpe).2.symm
  have hnn : (0 : ℚ) ≤ (p.1 : ℚ) := Nat.cast_nonneg p.1
  constructor
  · rw [hc]
    apply one_div_pos.mpr
    linarith
  · rw [hc]
    have h61 : (61 : ℚ) ≤ (p.1 : ℚ) + 1 + 60 := by linarith
    calc 1 / ((p.1 : ℚ) + 1 + 60) ≤ 1 / 61 := by
          apply one_div_le_one_div_of_le (by norm_num) h61

/-- Witness for claim C9 at the ranked list ["a"]: the rank-1 contribution
1/61 satisfies both bounds. -/
theorem c9_rrf_contribution_bounds_witness : 0 < (1/61 : ℚ) ∧ (1/61 : ℚ) ≤ 1/61 :=
  c9_rrf_contribution_bounds ["a"] "a" (1/61) (by with_unfolding_all decide)

/-- Claim C10: the specific-versus-conceptual classification computed by
Retriever.search has no effect on the returned scores or order (search
equals searchFrom under an arbitrary classification flag), and the
metadata adjustment always uses the fixed bonuses: the sender-name bonus is
0.15 at most once (it is 0.15 exactly when some potential name matches,
never accumulated), and the year bonus is 0.15 at most once. -/
theorem c10_classification_no_effect :
    (∀ (b : Bool) (st : Settings) (q : String) (reply : Option String) (bIds : List String)
      (perExp : String → ExpansionData) (lookup : String → Option IndexedChunk),
      search st q reply bIds perExp lookup =
        searchFrom st b (extractKeywords q) (potentialNames q) (expandQuery q reply)
          bIds perExp lookup) ∧
    (∀ (fromLower : List Char) (names : List String),
      senderBoost fromLower names =
        if names.any (fun n => strIncl (pyLower n).data fromLower) then 3/20 else 0) ∧
    (∀ (date : List Char) (kws : List String),
      yearBoost date kws = if kws.any (isYearKeyword date) then 3/20 else 0) := by
  refine ⟨fun b st q reply bIds perExp lookup => rfl, ?_, ?_⟩
  · intro fromLower names
    induction names with
    | nil => rfl
    | cons n ns ih =>
      unfold senderBoost
      by_cases h : strIncl (pyLower n).data fromLower = true
      · simp [h]
      · rw [Bool.not_eq_true] at h
        simp [h, ih]
  · intro date kws
    induction kws with
    | nil => rfl
    | cons kw ks ih =>
      unfold yearBoost
      by_cases h : isYearKeyword date kw = true
      · simp [h]
      · rw [Bool.not_eq_true] at h
        simp [h, ih]

/-- Claim C3: an absent BM25 index behaves exactly as an empty lexical
ranking (zero lexical contribution for every passage, no error), and when
the vector index returns at least one hit whose chunk the passage lookup
resolves, search returns ok with a non-empty result. -/
theorem c3_lexical_absent_degrades (st : Settings) (q : String) (reply : Option String)
    (bIds : List String) (e0 : List ℚ) (t0 : List (List ℚ)) (hits : List IndexedChunk)
    (lookup : String → Option IndexedChunk)
    (hhits : hits ≠ [])
    (hlook : ∀ c ∈ hits, lookup c.chunk_id = some c) :
    (∀ (er : Except String (List (List ℚ))) (vh : List IndexedChunk) (k : Nat),
      hybridSearch bIds ⟨none, er, vh⟩ k = hybridSearch bIds ⟨some [], er, vh⟩ k) ∧
    ∃ r, search st q reply bIds (fun _ => ⟨none, .ok (e0 :: t0), hits⟩) lookup = .ok r ∧
      r ≠ [] := by
  constructor
  · intro er vh k
    cases er with
    | error e => rfl
    | ok embs =>
      simp only [hybridSearch]
      rw [show List.range ([] : List ℚ).length = [] from rfl,
        show sortDescBy (fun i => ([] : List ℚ).getD i 0) [] = [] from rfl,
        List.take_nil]
      simp [show rrfContributions ([] : List String) = [] from rfl,
        show dictOf [] = [] from rfl]
  · obtain ⟨dAll, hd, hne⟩ := searchLoop_semOnly st bIds e0 t0 hits lookup hhits hlook
      (expandQuery q reply) []
    have hdne : dAll ≠ [] := hne (Or.inr (expandQuery_ne_nil q reply))
    have hmapne : dAll.map (fun p => RetrievedChunk.mk p.2.1
        (scoreChunk st (extractKeywords q) (potentialNames q) p.2.1 p.2.2)) ≠ [] := by
      intro hc
      apply hdne
      simpa using congrArg List.length hc
    have hsortne := sortDescBy_ne_nil (fun rc : RetrievedChunk => rc.score) _ hmapne
    rcases List.exists_cons_of_ne_nil hsortne with ⟨c0, rest0, heq⟩
    refine ⟨dedupByThread (sortDescBy (fun rc => rc.score) (dAll.map (fun p =>
      RetrievedChunk.mk p.2.1 (scoreChunk st (extractKeywords q) (potentialNames q)
        p.2.1 p.2.2)))) 1 st.top_k_final, ?_, ?_⟩
    · unfold search searchFrom
      rw [hd]
    · rw [heq]
      exact dedupByThread_ne_nil c0 rest0 1 st.top_k_final (by omega)

/-- The single vector hit of the claim C3 witness. -/
def c3hit : IndexedChunk := ⟨"h", "m", "t", "s", "f", [], "", 0, "", "", 0⟩

/-- The passage lookup of the claim C3 witness. -/
def c3lookup : String → Option IndexedChunk := fun cid =>
  if cid = "h" then some c3hit else none

/-- Witness for claim C3: with the BM25 index absent on every expansion and
one vector hit, search returns ok with a non-empty result. -/
theorem c3_lexical_absent_degrades_witness :
    ∃ r, search defaultSettings "q" none [] (fun _ => ⟨none, .ok [[1]], [c3hit]⟩) c3lookup =
      .ok r ∧ r ≠ [] :=
  (c3_lexical_absent_degrades defaultSettings "q" none [] [1] [] [c3hit] c3lookup
    (by decide) (by decide)).2

/-- Claim C4 counterexample: a persistent embedding failure (the embedder
raising after retries) propagates out of search as an error; the claim that
no embedding exception escapes search is false on this input. -/
theorem c4_counterexample_embed_error_propagates :
    search defaultSettings "q" none ["b"]
      (fun _ => ⟨some [1], .error "RateLimitError", []⟩) (fun _ => none) =
      .error "RateLimitError" := by
  with_unfolding_all decide

/-- Claim C4 amended: Embedder._embed_with_retry re-raises after five
failed attempts; an embedding error on the first expansion propagates out
of searchFrom unchanged (no handler exists in retrieval.py); the vector
signal is skipped without error only when the embedder returns an empty
embedding list, in which case the hits play no role and fusion continues
with the lexical signal alone. -/
theorem c4_amended_embed_error_propagates :
    embedWithRetry (List.replicate 5 EmbedOutcome.rateLimit) = .error "RateLimitError" ∧
    (∀ (st : Settings) (b : Bool) (kws names : List String) (bIds : List String)
      (perExp : String → ExpansionData) (lookup : String → Option IndexedChunk)
      (e0 : String) (rest : List String) (err : String),
      (perExp e0).embedRes = .error err →
      searchFrom st b kws names (e0 :: rest) bIds perExp lookup = .error err) ∧
    (∀ (bIds : List String) (bm25 : Option (List ℚ)) (hits : List IndexedChunk) (k : Nat),
      hybridSearch bIds ⟨bm25, .ok [], hits⟩ k = hybridSearch bIds ⟨bm25, .ok [], []⟩ k) := by
  refine ⟨by decide, ?_, fun bIds bm25 hits k => rfl⟩
  intro st b kws names bIds perExp lookup e0 rest err h
  have hh : hybridSearch bIds (perExp e0) st.top_k = .error err := by
    unfold hybridSearch
    rw [h]
  have hloop : searchLoop st bIds perExp lookup (e0 :: rest) [] = .error err := by
    show (match hybridSearch bIds (perExp e0) st.top_k with
      | Except.error err2 => (Except.error err2 : Except String (List (String × IndexedChunk × ℚ)))
      | Except.ok hs => searchLoop st bIds perExp lookup rest (processExpansion lookup [] hs)) =
      Except.error err
    rw [hh]
  unfold searchFrom
  rw [hloop]

/-- Witness for claim C4 amended: a concrete embedding error on the only
expansion makes searchFrom return that error. -/
theorem c4_amended_witness :
    searchFrom defaultSettings true [] [] ["x"] ["b"]
      (fun _ => ⟨some [1], .error "E", []⟩) (fun _ => none) = .error "E" :=
  c4_amended_embed_error_propagates.2.1 defaultSettings true [] [] ["b"]
    (fun _ => ⟨some [1], .error "E", []⟩) (fun _ => none) "x" [] "E" rfl

/-- The passage hit by expansion one of the claim C5 counterexample. -/
def c5chunkZ : IndexedChunk := ⟨"z", "mz", "tz", "s", "f", [], "", 0, "", "", 0⟩

/-- The passage hit by expansion two of the claim C5 counterexample. -/
def c5chunkA : IndexedChunk := ⟨"a", "ma", "ta", "s", "f", [], "", 0, "", "", 0⟩

/-- Per-expansion collaborator data of the claim C5 counterexample: the
original query "q" hits passage z at vector rank one, the expansion term
"r" hits passage a at vector rank one, with no BM25 index. -/
def c5perExp : String → ExpansionData := fun e =>
  if e = "q" then ⟨none, .ok [[1]], [c5chunkZ]⟩ else ⟨none, .ok [[1]], [c5chunkA]⟩

/-- Passage lookup of the claim C5 counterexample. -/
def c5lookup : String → Option IndexedChunk := fun cid =>
  if cid = "z" then some c5chunkZ else if cid = "a" then some c5chunkA else none

/-- Claim C5 counterexample: both passages end with the same final score
1/61, passage identifier "a" is lexicographically smaller than "z", yet
search returns z first because Python sorted is stable and z was
accumulated first; there is no tie-break by passage identifier. -/
theorem c5_counterexample_tie_order :
    search defaultSettings "q" (some "r") [] c5perExp c5lookup =
      .ok [⟨c5chunkZ, 1/61⟩, ⟨c5chunkA, 1/61⟩] ∧
    (⟨c5chunkZ, 1/61⟩ : RetrievedChunk).score = (⟨c5chunkA, 1/61⟩ : RetrievedChunk).score ∧
    c5chunkA.chunk_id < c5chunkZ.chunk_id := by
  refine ⟨by with_unfolding_all decide, rfl, String.lt_iff_toList_lt.mpr (by decide)⟩

/-- Claim C5 amended: every ok result of search is sorted by final score
descending, and the sort used (Python sorted, reverse=True) is stable: it
permutes nothing and keeps the equal-score passages of any input in their
accumulation order, rather than breaking ties by passage identifier. -/
theorem c5_amended_stable_order :
    (∀ (st : Settings) (q : String) (reply : Option String) (bIds : List String)
      (perExp : String → ExpansionData) (lookup : String → Option IndexedChunk)
      (r : List RetrievedChunk),
      search st q reply bIds perExp lookup = .ok r →
      List.Pairwise (fun x y : RetrievedChunk => y.score ≤ x.score) r) ∧
    (∀ l : List RetrievedChunk, (sortDescBy (fun rc => rc.score) l).Perm l) ∧
    (∀ (l : List RetrievedChunk) (c : ℚ),
      (sortDescBy (fun rc => rc.score) l).filter (fun rc => decide (rc.score = c)) =
        l.filter (fun rc => decide (rc.score = c))) := by
  refine ⟨?_, fun l => sortDescBy_perm _ l, fun l c => sortDescBy_filter _ c l⟩
  intro st q reply bIds perExp lookup r h
  unfold search searchFrom at h
  cases hl : searchLoop st bIds perExp lookup (expandQuery q reply) [] with
  | error e =>
    rw [hl] at h
    exact absurd h (by simp)
  | ok dAll =>
    rw [hl] at h
    have h2 := Except.ok.inj h
    rw [← h2]
    exact List.Pairwise.sublist (dedupGo_sublist 1 st.top_k_final _ [] 0)
      (sortDescBy_pairwise (fun rc : RetrievedChunk => rc.score) _)

/-- Witness for claim C5 amended: the counterexample run is ok, and its
result is indeed sorted by score descending. -/
theorem c5_amended_stable_order_witness :
    List.Pairwise (fun x y : RetrievedChunk => y.score ≤ x.score)
      [⟨c5chunkZ, 1/61⟩, ⟨c5chunkA, 1/61⟩] :=
  c5_amended_stable_order.1 defaultSettings "q" (some "r") [] c5perExp c5lookup
    [⟨c5chunkZ, 1/61⟩, ⟨c5chunkA, 1/61⟩] (by with_unfolding_all decide)

theorem listStarts_iff : ∀ n h : List Char, listStarts n h = true ↔ ∃ r, h = n ++ r := by
  intro n
  induction n with
  | nil =>
    intro h
    simp [listStarts]
  | cons a as ih =>
    intro h
    cases h with
    | nil => simp [listStarts]
    | cons b bs =>
      unfold listStarts
      rw [Bool.and_eq_true, decide_eq_true_eq, ih bs]
      constructor
      · rintro ⟨rfl, ⟨r, rfl⟩⟩
        exact ⟨r, rfl⟩
      · rintro ⟨r, hr⟩
        injection hr with h1 h2
        exact ⟨h1.symm, ⟨r, h2⟩⟩

theorem strIncl_iff : ∀ n h : List Char, strIncl n h = true ↔ ∃ l r, h = l ++ n ++ r := by
  intro n h
  induction h with
  | nil =>
    cases n with
    | nil =>
      constructor
      · intro _
        exact ⟨[], [], rfl⟩
      · intro _
        rfl
    | cons c cs => simp [strIncl]
  | cons c t ih =>
    unfold strIncl
    rw [Bool.or_eq_true, listStarts_iff, ih]
    constructor
    · rintro (⟨r, hr⟩ | ⟨l, r, hr⟩)
      · exact ⟨[], r, by simpa using hr⟩
      · exact ⟨c :: l, r, by simp [hr]⟩
    · rintro ⟨l, r, hr⟩
      cases l with
      | nil =>
        left
        exact ⟨r, by simpa using hr⟩
      | cons c2 l2 =>
        right
        injection hr with h1 h2
        exact ⟨l2, r, h2⟩

theorem matchAny_iff (hay : List Char) : ∀ pats : List String,
    matchAny hay pats = true ↔ ∃ p ∈ pats, strIncl p.data hay = true := by
  intro pats
  induction pats with
  | nil => simp [matchAny]
  | cons p ps ih =>
    unfold matchAny
    rw [Bool.or_eq_true, ih]
    constructor
    · rintro (h | ⟨q2, hq, hstr⟩)
      · exact ⟨p, List.mem_cons_self p ps, h⟩
      · exact ⟨q2, List.mem_cons_of_mem p hq, hstr⟩
    · rintro ⟨q2, hq, hstr⟩
      rcases List.mem_cons.mp hq with rfl | hq2
      · exact Or.inl hstr
      · exact Or.inr ⟨q2, hq2, hstr⟩

/-- The flagged passage of the claim C6 witness (its sender contains the
configured pattern noreply). -/
def c6flagged : IndexedChunk := ⟨"c1", "m", "t", "hi", "noreply@x.com", [], "", 0, "", "", 0⟩

/-- The clean passage of the claim C6 witness, identical except for its
sender address. -/
def c6clean : IndexedChunk := ⟨"c2", "m", "t", "hi", "bob@x.com", [], "", 0, "", "", 0⟩

/-- Claim C6: the default spam penalty is 0.3; a passage is flagged spammy
exactly when its lower-cased subject contains a configured spam-subject
pattern as a substring or its lower-cased sender address contains a
configured spam-sender pattern as a substring; and two candidates that
agree on subject, date and sender-name boost, one flagged and one not, end
with final scores that differ by exactly the configured penalty. -/
theorem c6_spam_penalty_exact :
    defaultSettings.spam_penalty = 3/10 ∧
    (∀ (st : Settings) (chunk : IndexedChunk),
      isSpammy st chunk = true ↔
        ((∃ p ∈ st.spam_subject_patterns,
            ∃ l r, (pyLower chunk.subject).data = l ++ p.data ++ r) ∨
         (∃ p ∈ st.spam_sender_patterns,
            ∃ l r, (pyLower chunk.from_address).data = l ++ p.data ++ r))) ∧
    (∀ (st : Settings) (kws names : List String) (ch1 ch2 : IndexedChunk) (rrf : ℚ),
      ch1.subject = ch2.subject → ch1.date = ch2.date →
      senderBoost (pyLower ch1.from_address).data names =
        senderBoost (pyLower ch2.from_address).data names →
      isSpammy st ch1 = true → isSpammy st ch2 = false →
      scoreChunk st kws names ch1 rrf = scoreChunk st kws names ch2 rrf - st.spam_penalty) := by
  refine ⟨rfl, ?_, ?_⟩
  · intro st chunk
    unfold isSpammy
    rw [Bool.or_eq_true, matchAny_iff, matchAny_iff]
    constructor
    · rintro (⟨p, hp, hs⟩ | ⟨p, hp, hs⟩)
      · exact Or.inl ⟨p, hp, (strIncl_iff _ _).mp hs⟩
      · exact Or.inr ⟨p, hp, (strIncl_iff _ _).mp hs⟩
    · rintro (⟨p, hp, hs⟩ | ⟨p, hp, hs⟩)
      · exact Or.inl ⟨p, hp, (strIncl_iff _ _).mpr hs⟩
      · exact Or.inr ⟨p, hp, (strIncl_iff _ _).mpr hs⟩
  · intro st kws names ch1 ch2 rrf hsub hdate hname hs1 hs2
    unfold scoreChunk
    rw [hsub, hdate, hname, if_pos hs1, if_neg (by simp [hs2])]
    ring

/-- Witness for claim C6: with the default settings, the noreply sender is
flagged, the plain sender is not, and the final scores differ by exactly
the default penalty. -/
theorem c6_spam_penalty_exact_witness :
    isSpammy defaultSettings c6flagged = true ∧
    isSpammy defaultSettings c6clean = false ∧
    scoreChunk defaultSettings [] [] c6flagged (1/61) =
      scoreChunk defaultSettings [] [] c6clean (1/61) - defaultSettings.spam_penalty :=
  ⟨by decide, by decide,
    c6_spam_penalty_exact.2.2 defaultSettings [] [] c6flagged c6clean (1/61)
      rfl rfl rfl (by decide) (by decide)⟩
